import Mathlib

/-!
Verification of the js-cookie library (src/js-cookie.js): a shallow embedding
of its cookie-string parsing and writing operations, together with a model of
the host's ambient cookie property (document.cookie) taken from the
specification, and proofs about the specified behaviour.

JS strings are modelled as `List Char`; JS expressions that may evaluate to
`null` or `undefined` are modelled by `JsValue`.
-/

namespace JsCookie

/-- Result of a JS expression that may be `undefined`, `null`, or a string. -/
inductive JsValue where
  | undef : JsValue
  | null : JsValue
  | str : List Char → JsValue
deriving DecidableEq, Repr

/-- An optional JS argument as passed to `set`: absent arguments are `undef`;
booleans and numbers appear because callers may pass them for the option
parameters (`secure: true`, `maxAge: 0`, ...). -/
inductive JsArg where
  | undef : JsArg
  | null : JsArg
  | str : List Char → JsArg
  | num : Int → JsArg
  | bool : Bool → JsArg
deriving DecidableEq, Repr

/-- JS truthiness of an argument (`x || d` picks `d` exactly when `x` is falsy). -/
def JsArg.truthy : JsArg → Bool
  | .undef => false
  | .null => false
  | .str s => !s.isEmpty
  | .num n => n != 0
  | .bool b => b

/-- JS string coercion, as performed by `+` when building the cookie string. -/
def JsArg.toStr : JsArg → List Char
  | .undef => "undefined".data
  | .null => "null".data
  | .str s => s
  | .num n => (toString n).data
  | .bool b => if b then "true".data else "false".data

/-- The characters matched by the JS regexp class `\s` (the ASCII part plus
the common Unicode members; ambient cookie strings in practice only contain
spaces around delimiters). -/
def isJsWhitespace (c : Char) : Bool :=
  c = ' ' || c = '\t' || c = '\n' || c = '\r' ||
  c = '\x0b' || c = '\x0c' || c = '\u00A0' || c = '\uFEFF'

/-- JS `String.prototype.split` with a one-character separator: every
occurrence splits, and the result has one more piece than separators. -/
def splitOnChar (sep : Char) : List Char → List (List Char)
  | [] => [[]]
  | c :: cs =>
    if c = sep then
      [] :: splitOnChar sep cs
    else
      match splitOnChar sep cs with
      | [] => [[c]]
      | p :: ps => (c :: p) :: ps

def dropLeadingWs (l : List Char) : List Char := l.dropWhile isJsWhitespace

def dropTrailingWs (l : List Char) : List Char :=
  (l.reverse.dropWhile isJsWhitespace).reverse

/-- Trimming of the pieces after the first produced by splitting on ';':
whitespace adjacent to a ';' belongs to the delimiter match of `/\s*;\s*/`,
so every piece but the first loses leading whitespace and every piece but the
last loses trailing whitespace. -/
def trimRest : List (List Char) → List (List Char)
  | [] => []
  | [p] => [dropLeadingWs p]
  | p :: ps => dropLeadingWs (dropTrailingWs p) :: trimRest ps

/-- JS `s.split(/\s*;\s*/g)`: split on ';', then strip the whitespace the
greedy delimiter match absorbs on each side of each ';'. -/
def splitSemiWs (s : List Char) : List (List Char) :=
  match splitOnChar ';' s with
  | [] => []
  | [p] => [p]
  | p :: ps => dropTrailingWs p :: trimRest ps

/-- JS array indexing: out-of-range access yields `undefined`. -/
def jsIndex (l : List (List Char)) (i : Nat) : JsValue :=
  match l.get? i with
  | some s => JsValue.str s
  | none => JsValue.undef

/-- pair[0] of `v.split("=")` (a split result is never empty). -/
def segName (seg : List Char) : List Char := (splitOnChar '=' seg).headD []

/-- pair[1] of `v.split("=")`. -/
def segValue (seg : List Char) : JsValue := jsIndex (splitOnChar '=' seg) 1

/-- Loop body of `Cookie.get`: scan the segments in order and return pair[1]
of the first segment whose pair[0] equals `key`; `null` when none matches. -/
def findPair : List (List Char) → List Char → JsValue
  | [], _ => JsValue.null
  | seg :: rest, key =>
    if segName seg = key then segValue seg else findPair rest key

/-- Cookie.get: `null` on an empty ambient string, otherwise the scan above
over `document.cookie.split(/\s*;\s*/g)`. -/
def get (cookie key : List Char) : JsValue :=
  if cookie = [] then JsValue.null
  else findPair (splitSemiWs cookie) key

/-- A JS plain object with string keys: an association list kept in property
insertion order. -/
abbrev JsObject := List (List Char × JsValue)

/-- JS `obj[k] = v`: overwrite in place when the key exists, append otherwise. -/
def objSet (obj : JsObject) (k : List Char) (v : JsValue) : JsObject :=
  if obj.any (fun p => p.1 = k) then
    obj.map (fun p => if p.1 = k then (k, v) else p)
  else
    obj ++ [(k, v)]

/-- JS property read `obj[k]`: `undefined` when the key is absent. -/
def objGet (obj : JsObject) (k : List Char) : JsValue :=
  match obj.find? (fun p => p.1 = k) with
  | some p => p.2
  | none => JsValue.undef

/-- Cookie.getAll: build a plain object from every parsed (pair[0], pair[1]). -/
def getAll (cookie : List Char) : JsObject :=
  if cookie = [] then []
  else (splitSemiWs cookie).foldl
    (fun result seg => objSet result (segName seg) (segValue seg)) []

/-- Modelled from the spec: the host store behind the ambient
`document.cookie` property — a sequence of (name, value) pairs. The library
reads and assigns `document.cookie`, which is the browser's, not this
repository's, code; its behaviour is taken from the specification's external
interface section. -/
abbrev Jar := List (List Char × List Char)

/-- One pair serialized for reading, `name=value`. -/
def entryStr (p : List Char × List Char) : List Char := p.1 ++ '=' :: p.2

/-- Modelled from the spec: reading the ambient property yields all pairs as
`name=value` joined by `"; "`. -/
def renderJar : Jar → List Char
  | [] => []
  | [p] => entryStr p
  | p :: ps => entryStr p ++ ';' :: ' ' :: renderJar ps

/-- The string `new Date(0).toUTCString()` produces, as used by `unset`. -/
def epochUTC : List Char := "Thu, 01 Jan 1970 00:00:00 GMT".data

/-- Glue a split back together with '=': everything after the first '=' of
the written `name=value` part is the stored value. -/
def joinEq : List (List Char) → List Char
  | [] => []
  | [p] => p
  | p :: ps => p ++ '=' :: joinEq ps

/-- Name of the one cookie an assigned attribute string describes: the text
before the first '=' of the part before the first ';'. -/
def hostName (s : List Char) : List Char :=
  (splitOnChar '=' ((splitOnChar ';' s).headD [])).headD []

/-- Value of the one cookie an assigned attribute string describes: the text
between the first '=' and the first ';'. -/
def hostValue (s : List Char) : List Char :=
  joinEq ((splitOnChar '=' ((splitOnChar ';' s).headD [])).drop 1)

/-- Modelled from the spec: assigning to the ambient property upserts the one
cookie described by the attribute string — never replacing the whole set —
and a write whose `expires` attribute is the epoch timestamp deletes that
cookie ("host-side deletion"). -/
def hostWrite (jar : Jar) (s : List Char) : Jar :=
  if ((splitOnChar ';' s).drop 1).any (fun a => a = "expires=".data ++ epochUTC) then
    jar.filter (fun p => ¬ (p.1 = hostName s))
  else if jar.any (fun p => p.1 = hostName s) then
    jar.map (fun p => if p.1 = hostName s then (hostName s, hostValue s) else p)
  else
    jar ++ [(hostName s, hostValue s)]

/-- Lines 57-74 of `Cookie.set`: default every falsy option, then build the
attribute string
`key=value;path=<path>;[expires=..;][max-age=..;][domain=..;][secure;][samesite;]`. -/
def setCookieString (key value : List Char)
    (path expires maxAge domain secure samesite : JsArg) : List Char :=
  let path := if path.truthy then path else JsArg.str "/".data
  let expires := if expires.truthy then expires else JsArg.str []
  let maxAge := if maxAge.truthy then maxAge else JsArg.str []
  let domain := if domain.truthy then domain else JsArg.str []
  let secure := secure.truthy
  let samesite := samesite.truthy
  let str := key ++ "=".data ++ value ++ ";path=".data ++ path.toStr ++ ";".data
  let str := if expires.truthy then str ++ "expires=".data ++ expires.toStr ++ ";".data else str
  let str := if maxAge.truthy then str ++ "max-age=".data ++ maxAge.toStr ++ ";".data else str
  let str := if domain.truthy then str ++ "domain=".data ++ domain.toStr ++ ";".data else str
  let str := if secure then str ++ "secure;".data else str
  let str := if samesite then str ++ "samesite;".data else str
  str

/-- Cookie.set over an ambient jar: the old value is read via `get` before
the write; the returned jar is the state after the host processes the
assignment. -/
def set (jar : Jar) (key value : List Char)
    (path expires maxAge domain secure samesite : JsArg) : JsValue × Jar :=
  let oldValue := get (renderJar jar) key
  (oldValue, hostWrite jar (setCookieString key value path expires maxAge domain secure samesite))

/-- Cookie.setAsMap: set every key of a plain object with default options. -/
def setAsMap (jar : Jar) (object : List (List Char × List Char)) : Jar :=
  object.foldl (fun j p =>
    (set j p.1 p.2 JsArg.undef JsArg.undef JsArg.undef JsArg.undef
      JsArg.undef JsArg.undef).2) jar

/-- One element of the array taken by `Cookie.setAsArray`; properties absent
from the object read as `undefined`. -/
structure CookieItem where
  key : List Char
  value : List Char
  path : JsArg
  expires : JsArg
  maxAge : JsArg
  domain : JsArg
  secure : JsArg
  samesite : JsArg
deriving DecidableEq, Repr

/-- Cookie.setAsArray: set every item with its own options, in order. -/
def setAsArray (jar : Jar) (array : List CookieItem) : Jar :=
  array.foldl (fun j c =>
    (set j c.key c.value c.path c.expires c.maxAge c.domain c.secure c.samesite).2) jar

/-- The string `Cookie.unset` assigns: empty value, epoch expiry, path=/. -/
def unsetString (key : List Char) : List Char :=
  key ++ "=".data ++ ";expires=".data ++ epochUTC ++ ";path=/".data

/-- Cookie.unset: read the old value via `get`, then write the expired cookie. -/
def unset (jar : Jar) (key : List Char) : JsValue × Jar :=
  let oldValue := get (renderJar jar) key
  (oldValue, hostWrite jar (unsetString key))

/-- Cookie.clear: take one `getAll` snapshot and `unset` every key in it. -/
def clear (jar : Jar) : Jar :=
  (getAll (renderJar jar)).foldl (fun j p => (unset j p.1).2) jar

/-- A string free of ';', '=', and whitespace: safe on either side of '='. -/
abbrev CleanStr (l : List Char) : Prop :=
  ∀ c ∈ l, c ≠ ';' ∧ c ≠ '=' ∧ isJsWhitespace c = false

/-- Well-formed ambient jar: clean names and values, no duplicate names. -/
abbrev WFJar (jar : Jar) : Prop :=
  (∀ p ∈ jar, CleanStr p.1 ∧ CleanStr p.2) ∧ (jar.map Prod.fst).Nodup

/-- Name of a segment as the specification words it: the text before the
first '=' of the segment. -/
def specSegName (seg : List Char) : List Char := seg.takeWhile (fun c => !(c == '='))

/-- Value of a segment as the specification words it: the segment is split on
the FIRST '=' and the value is the ENTIRE remainder after it ("the full text
after the first '='"); a segment without '=' has no value. -/
def specSegValue (seg : List Char) : JsValue :=
  if '=' ∈ seg then JsValue.str ((seg.dropWhile (fun c => !(c == '='))).drop 1)
  else JsValue.undef

def specFindPair : List (List Char) → List Char → JsValue
  | [], _ => JsValue.null
  | seg :: rest, key =>
    if specSegName seg = key then specSegValue seg else specFindPair rest key

/-- Cookie.get as the specification describes it (claim C2): value of the
first matching segment, the value being everything after the first '='. -/
def specGet (cookie key : List Char) : JsValue :=
  if cookie = [] then JsValue.null
  else specFindPair (splitSemiWs cookie) key

/-- The amended description of the value: the text strictly between the first
and the second '=' of the segment (the remainder past a second '=' is lost). -/
def amendedSegValue (seg : List Char) : JsValue :=
  if '=' ∈ seg then
    JsValue.str
      (((seg.dropWhile (fun c => !(c == '='))).drop 1).takeWhile (fun c => !(c == '=')))
  else JsValue.undef

def amendedFindPair : List (List Char) → List Char → JsValue
  | [], _ => JsValue.null
  | seg :: rest, key =>
    if specSegName seg = key then amendedSegValue seg else amendedFindPair rest key

/-- Cookie.get as amended: like `specGet` but with the truncated value. -/
def amendedGet (cookie key : List Char) : JsValue :=
  if cookie = [] then JsValue.null
  else amendedFindPair (splitSemiWs cookie) key

/-! Basic facts about `splitOnChar`. -/

theorem splitOnChar_cons_sep (sep : Char) (cs : List Char) :
    splitOnChar sep (sep :: cs) = [] :: splitOnChar sep cs := by
  simp [splitOnChar]

theorem splitOnChar_ne_nil (sep : Char) (l : List Char) : splitOnChar sep l ≠ [] := by
  cases l with
  | nil => simp [splitOnChar]
  | cons c cs =>
    simp only [splitOnChar]
    by_cases h : c = sep
    · simp [h]
    · simp only [h, if_false]
      cases splitOnChar sep cs <;> simp

theorem splitOnChar_cons_ne (sep c : Char) (cs : List Char) (h : c ≠ sep) :
    splitOnChar sep (c :: cs) =
      (c :: (splitOnChar sep cs).headD []) :: (splitOnChar sep cs).tail := by
  simp only [splitOnChar, h, if_false]
  cases hs : splitOnChar sep cs with
  | nil => exact absurd hs (splitOnChar_ne_nil sep cs)
  | cons p ps => simp

theorem splitOnChar_nosep (sep : Char) (l : List Char) (h : ∀ c ∈ l, c ≠ sep) :
    splitOnChar sep l = [l] := by
  induction l with
  | nil => rfl
  | cons c cs ih =>
    have hc : c ≠ sep := h c (by simp)
    rw [splitOnChar_cons_ne sep c cs hc, ih (fun x hx => h x (by simp [hx]))]
    simp

theorem splitOnChar_append_sep (sep : Char) (a b : List Char) (h : ∀ c ∈ a, c ≠ sep) :
    splitOnChar sep (a ++ sep :: b) = a :: splitOnChar sep b := by
  induction a with
  | nil => simp [splitOnChar_cons_sep]
  | cons c cs ih =>
    have hc : c ≠ sep := h c (by simp)
    rw [List.cons_append, splitOnChar_cons_ne sep c _ hc,
      ih (fun x hx => h x (by simp [hx]))]
    simp

theorem splitOnChar_headD (sep : Char) (l : List Char) :
    (splitOnChar sep l).headD [] = l.takeWhile (fun c => !(c == sep)) := by
  induction l with
  | nil => rfl
  | cons c cs ih =>
    by_cases h : c = sep
    · subst h
      simp [splitOnChar_cons_sep]
    · rw [splitOnChar_cons_ne sep c cs h]
      cases hs : splitOnChar sep cs with
      | nil => exact absurd hs (splitOnChar_ne_nil sep cs)
      | cons p ps =>
        rw [hs] at ih
        have hp : p = cs.takeWhile (fun c => !(c == sep)) := by simpa using ih
        simp [List.headD_cons, h, hp]

/-- Structure of a one-character split: the first piece is everything up to
the first separator, and when a separator occurs the rest of the result is
the split of what follows it. -/
theorem splitOnChar_structure (sep : Char) (l : List Char) :
    splitOnChar sep l =
      if sep ∈ l then
        l.takeWhile (fun c => !(c == sep)) ::
          splitOnChar sep ((l.dropWhile (fun c => !(c == sep))).drop 1)
      else [l] := by
  induction l with
  | nil => rfl
  | cons c cs ih =>
    by_cases h : c = sep
    · subst h
      simp [splitOnChar_cons_sep]
    · rw [splitOnChar_cons_ne sep c cs h]
      have hb : (!(c == sep)) = true := by simp [h]
      by_cases hm : sep ∈ cs
      · have hcs : splitOnChar sep cs =
            cs.takeWhile (fun x => !(x == sep)) ::
              splitOnChar sep ((cs.dropWhile (fun x => !(x == sep))).drop 1) := by
          rw [ih]; simp [hm]
        simp [hcs, List.mem_cons, hm, h, List.takeWhile_cons, List.dropWhile_cons, hb]
      · have hns : splitOnChar sep cs = [cs] := by
          rw [ih]; simp [hm]
        simp [hns, List.mem_cons, Ne.symm h, hm, h]

/-! Per-segment characterizations of pair[0] and pair[1]. -/

theorem segName_eq_spec (seg : List Char) : segName seg = specSegName seg :=
  splitOnChar_headD '=' seg

theorem segValue_eq_amended (seg : List Char) : segValue seg = amendedSegValue seg := by
  unfold segValue jsIndex amendedSegValue
  rw [splitOnChar_structure]
  by_cases h : '=' ∈ seg
  · simp only [h, if_true]
    cases hs : splitOnChar '=' ((seg.dropWhile (fun c => !(c == '='))).drop 1) with
    | nil => exact absurd hs (splitOnChar_ne_nil _ _)
    | cons p ps =>
      have hp : p =
          ((seg.dropWhile (fun c => !(c == '='))).drop 1).takeWhile (fun c => !(c == '=')) := by
        have hh := splitOnChar_headD '=' ((seg.dropWhile (fun c => !(c == '='))).drop 1)
        rw [hs] at hh
        simpa using hh
      simp [hs, hp]
  · simp [h]

theorem findPair_eq_amended (segs : List (List Char)) (key : List Char) :
    findPair segs key = amendedFindPair segs key := by
  induction segs with
  | nil => rfl
  | cons seg rest ih =>
    unfold findPair amendedFindPair
    rw [segName_eq_spec, segValue_eq_amended, ih]

/-- Whenever the scan of `get` produces a string, it came from some segment
whose pair[0] is the key and pair[1] the result. -/
theorem findPair_str_source (segs : List (List Char)) (key s : List Char)
    (h : findPair segs key = JsValue.str s) :
    ∃ seg ∈ segs, segName seg = key ∧ segValue seg = JsValue.str s := by
  induction segs with
  | nil => exact absurd h (by simp [findPair])
  | cons seg rest ih =>
    unfold findPair at h
    by_cases hk : segName seg = key
    · rw [if_pos hk] at h
      exact ⟨seg, by simp, hk, h⟩
    · rw [if_neg hk] at h
      obtain ⟨t, ht, h1, h2⟩ := ih h
      exact ⟨t, by simp [ht], h1, h2⟩

/-- pair[1] is a string only when the segment contains '='. -/
theorem segValue_str_mem (seg s : List Char) (h : segValue seg = JsValue.str s) :
    '=' ∈ seg := by
  rw [segValue_eq_amended] at h
  by_cases hm : '=' ∈ seg
  · exact hm
  · rw [amendedSegValue, if_neg hm] at h
    exact absurd h (by simp)

/-! Association-list lemmas for the JS object model. -/

theorem find?_map_replace_self {β : Type} (o : List (List Char × β)) (n : List Char) (v : β)
    (ha : (o.any fun p => p.1 = n) = true) :
    (o.map (fun p => if p.1 = n then (n, v) else p)).find? (fun p => p.1 = n) =
      some (n, v) := by
  induction o with
  | nil => simp at ha
  | cons p o' ih =>
    rw [List.map_cons]
    by_cases h : p.1 = n
    · rw [if_pos h]
      exact List.find?_cons_of_pos _ (by simp)
    · rw [if_neg h]
      have ha' : (o'.any fun p => p.1 = n) = true := by
        rw [List.any_cons, Bool.or_eq_true] at ha
        rcases ha with ha | ha
        · exact absurd (of_decide_eq_true ha) h
        · exact ha
      rw [List.find?_cons_of_neg _ (by simp [h])]
      exact ih ha'

theorem find?_map_replace_ne {β : Type} (o : List (List Char × β)) (n : List Char) (v : β)
    (k : List Char) (hk : k ≠ n) :
    (o.map (fun p => if p.1 = n then (n, v) else p)).find? (fun p => p.1 = k) =
      o.find? (fun p => p.1 = k) := by
  induction o with
  | nil => rfl
  | cons p o' ih =>
    rw [List.map_cons]
    by_cases h : p.1 = n
    · rw [if_pos h, List.find?_cons_of_neg _ (by simp [Ne.symm hk]),
        List.find?_cons_of_neg _ (by simp [h, Ne.symm hk])]
      exact ih
    · rw [if_neg h]
      by_cases h2 : p.1 = k
      · rw [List.find?_cons_of_pos _ (by simp [h2]),
          List.find?_cons_of_pos _ (by simp [h2])]
      · rw [List.find?_cons_of_neg _ (by simp [h2]),
          List.find?_cons_of_neg _ (by simp [h2])]
        exact ih

theorem find?_append_single_self {β : Type} (o : List (List Char × β)) (n : List Char) (v : β)
    (ha : ∀ p ∈ o, ¬ (p.1 = n)) :
    (o ++ [(n, v)]).find? (fun p => p.1 = n) = some (n, v) := by
  induction o with
  | nil => simp
  | cons p o' ih =>
    rw [List.cons_append, List.find?_cons_of_neg _ (by simp [ha p (by simp)])]
    exact ih (fun q hq => ha q (by simp [hq]))

theorem find?_append_single_ne {β : Type} (o : List (List Char × β)) (n : List Char) (v : β)
    (k : List Char) (hk : k ≠ n) :
    (o ++ [(n, v)]).find? (fun p => p.1 = k) = o.find? (fun p => p.1 = k) := by
  induction o with
  | nil => simp [Ne.symm hk]
  | cons p o' ih =>
    rw [List.cons_append]
    by_cases h : p.1 = k
    · rw [List.find?_cons_of_pos _ (by simp [h]),
        List.find?_cons_of_pos _ (by simp [h])]
    · rw [List.find?_cons_of_neg _ (by simp [h]),
        List.find?_cons_of_neg _ (by simp [h])]
      exact ih

theorem objGet_objSet_self (o : JsObject) (n : List Char) (v : JsValue) :
    objGet (objSet o n v) n = v := by
  unfold objGet objSet
  by_cases ha : (o.any fun p => p.1 = n) = true
  · rw [if_pos ha, find?_map_replace_self o n v ha]
  · rw [if_neg ha]
    have ha' : ∀ p ∈ o, ¬ (p.1 = n) := by
      intro p hp hpn
      exact ha (List.any_eq_true.2 ⟨p, hp, by simp [hpn]⟩)
    rw [find?_append_single_self o n v ha']

theorem objGet_objSet_ne (o : JsObject) (n : List Char) (v : JsValue)
    (k : List Char) (hk : k ≠ n) :
    objGet (objSet o n v) k = objGet o k := by
  unfold objGet objSet
  by_cases ha : (o.any fun p => p.1 = n) = true
  · rw [if_pos ha, find?_map_replace_ne o n v k hk]
  · rw [if_neg ha, find?_append_single_ne o n v k hk]

/-- What `getAll`'s fold stores under a key: the value of the LAST segment
whose name is that key, or whatever the accumulator already held. -/
theorem objGet_foldl_segs (segs : List (List Char)) (acc : JsObject) (k : List Char) :
    objGet (segs.foldl (fun result seg => objSet result (segName seg) (segValue seg)) acc) k =
      match (segs.filter (fun seg => segName seg = k)).getLast? with
      | some seg => segValue seg
      | none => objGet acc k := by
  induction segs generalizing acc with
  | nil => rfl
  | cons seg rest ih =>
    rw [List.foldl_cons, ih]
    by_cases h : segName seg = k
    · rw [List.filter_cons_of_pos (by simp [h])]
      cases hr : rest.filter (fun seg => segName seg = k) with
      | nil => simp [h, objGet_objSet_self]
      | cons t ts =>
        rw [List.getLast?_cons_cons]
        cases hl : (t :: ts).getLast? with
        | some u => rfl
        | none => simp at hl
    · rw [List.filter_cons_of_neg (by simp [h])]
      cases hr : (rest.filter (fun seg => segName seg = k)).getLast? with
      | some t => rfl
      | none => exact objGet_objSet_ne _ _ _ _ (fun hh => h hh.symm)

/-! Rendering a jar of clean entries and parsing it back. -/

theorem entryStr_no_semi (p : List Char × List Char)
    (h1 : CleanStr p.1) (h2 : CleanStr p.2) :
    ∀ c ∈ entryStr p, c ≠ ';' := by
  intro c hc
  unfold entryStr at hc
  rcases List.mem_append.1 hc with hc | hc
  · exact (h1 c hc).1
  · rcases List.mem_cons.1 hc with rfl | hc
    · decide
    · exact (h2 c hc).1

theorem entryStr_head (p : List Char × List Char) (h1 : CleanStr p.1) :
    ∃ c rest, entryStr p = c :: rest ∧ isJsWhitespace c = false := by
  unfold entryStr
  cases hp : p.1 with
  | nil => exact ⟨'=', p.2, rfl, by decide⟩
  | cons c k' =>
    refine ⟨c, k' ++ '=' :: p.2, by simp, ?_⟩
    exact (h1 c (by rw [hp]; simp)).2.2

theorem entryStr_rev_head (p : List Char × List Char) (h2 : CleanStr p.2) :
    ∃ c rest, (entryStr p).reverse = c :: rest ∧ isJsWhitespace c = false := by
  unfold entryStr
  rw [List.reverse_append, List.reverse_cons]
  cases hp : p.2.reverse with
  | nil => exact ⟨'=', p.1.reverse, by simp, by decide⟩
  | cons c r =>
    refine ⟨c, r ++ ['='] ++ p.1.reverse, by simp, ?_⟩
    have hc : c ∈ p.2 := by
      rw [← List.mem_reverse, hp]
      simp
    exact (h2 c hc).2.2

theorem dropLeadingWs_entry (p : List Char × List Char) (h1 : CleanStr p.1) :
    dropLeadingWs (entryStr p) = entryStr p := by
  obtain ⟨c, rest, he, hw⟩ := entryStr_head p h1
  unfold dropLeadingWs
  rw [he, List.dropWhile_cons_of_neg (by simp [hw])]

theorem dropLeadingWs_space_entry (p : List Char × List Char) (h1 : CleanStr p.1) :
    dropLeadingWs (' ' :: entryStr p) = entryStr p := by
  unfold dropLeadingWs
  rw [List.dropWhile_cons_of_pos (by decide)]
  exact dropLeadingWs_entry p h1

theorem dropTrailingWs_entry (p : List Char × List Char) (h2 : CleanStr p.2) :
    dropTrailingWs (entryStr p) = entryStr p := by
  obtain ⟨c, rest, he, hw⟩ := entryStr_rev_head p h2
  unfold dropTrailingWs
  rw [he, List.dropWhile_cons_of_neg (by simp [hw]), ← he, List.reverse_reverse]

theorem dropTrailingWs_space_entry (p : List Char × List Char) (h2 : CleanStr p.2) :
    dropTrailingWs (' ' :: entryStr p) = ' ' :: entryStr p := by
  obtain ⟨c, rest, he, hw⟩ := entryStr_rev_head p h2
  have hrev : (' ' :: entryStr p).reverse = c :: (rest ++ [' ']) := by
    rw [List.reverse_cons, he]
    rfl
  unfold dropTrailingWs
  rw [hrev, List.dropWhile_cons_of_neg (by simp [hw]), ← hrev, List.reverse_reverse]

theorem splitOnChar_renderJar (p : List Char × List Char) (ps : Jar)
    (h : ∀ q ∈ p :: ps, CleanStr q.1 ∧ CleanStr q.2) :
    splitOnChar ';' (renderJar (p :: ps)) =
      entryStr p :: ps.map (fun q => ' ' :: entryStr q) := by
  induction ps generalizing p with
  | nil =>
    exact splitOnChar_nosep ';' (entryStr p)
      (entryStr_no_semi p (h p (by simp)).1 (h p (by simp)).2)
  | cons q ps' ih =>
    show splitOnChar ';' (entryStr p ++ ';' :: ' ' :: renderJar (q :: ps')) = _
    rw [splitOnChar_append_sep ';' (entryStr p) _
      (entryStr_no_semi p (h p (by simp)).1 (h p (by simp)).2)]
    rw [splitOnChar_cons_ne ';' ' ' _ (by decide)]
    rw [ih q (fun r hr => h r (by simp [hr]))]
    simp

theorem trimRest_spaced (l : Jar) (h : ∀ q ∈ l, CleanStr q.1 ∧ CleanStr q.2)
    (hne : l ≠ []) :
    trimRest (l.map (fun q => ' ' :: entryStr q)) = l.map entryStr := by
  induction l with
  | nil => exact absurd rfl hne
  | cons q l' ih =>
    cases l' with
    | nil =>
      show [dropLeadingWs (' ' :: entryStr q)] = [entryStr q]
      rw [dropLeadingWs_space_entry q (h q (by simp)).1]
    | cons r l'' =>
      show dropLeadingWs (dropTrailingWs (' ' :: entryStr q)) :: trimRest _ =
        entryStr q :: _
      rw [dropTrailingWs_space_entry q (h q (by simp)).2,
        dropLeadingWs_space_entry q (h q (by simp)).1]
      show entryStr q :: trimRest (List.map (fun s => ' ' :: entryStr s) (r :: l'')) =
        entryStr q :: List.map entryStr (r :: l'')
      rw [ih (fun s hs => h s (by simp [hs])) (by simp)]

theorem splitSemiWs_renderJar (jar : Jar)
    (h : ∀ q ∈ jar, CleanStr q.1 ∧ CleanStr q.2) (hne : jar ≠ []) :
    splitSemiWs (renderJar jar) = jar.map entryStr := by
  cases jar with
  | nil => exact absurd rfl hne
  | cons p ps =>
    unfold splitSemiWs
    rw [splitOnChar_renderJar p ps h]
    cases ps with
    | nil => rfl
    | cons q ps' =>
      show dropTrailingWs (entryStr p) :: trimRest _ = _
      rw [dropTrailingWs_entry p (h p (by simp)).2]
      show entryStr p :: trimRest (List.map (fun s => ' ' :: entryStr s) (q :: ps')) =
        entryStr p :: List.map entryStr (q :: ps')
      rw [trimRest_spaced (q :: ps') (fun s hs => h s (by simp [hs])) (by simp)]

theorem segName_entryStr (p : List Char × List Char) (h1 : CleanStr p.1) :
    segName (entryStr p) = p.1 := by
  unfold segName entryStr
  rw [splitOnChar_append_sep '=' p.1 p.2 (fun c hc => (h1 c hc).2.1)]
  rfl

theorem segValue_entryStr (p : List Char × List Char)
    (h1 : CleanStr p.1) (h2 : CleanStr p.2) :
    segValue (entryStr p) = JsValue.str p.2 := by
  unfold segValue entryStr jsIndex
  rw [splitOnChar_append_sep '=' p.1 p.2 (fun c hc => (h1 c hc).2.1),
    splitOnChar_nosep '=' p.2 (fun c hc => (h2 c hc).2.1)]
  rfl

theorem findPair_entries (jar : Jar)
    (h : ∀ q ∈ jar, CleanStr q.1 ∧ CleanStr q.2) (k : List Char) :
    findPair (jar.map entryStr) k =
      match jar.find? (fun p => p.1 = k) with
      | some p => JsValue.str p.2
      | none => JsValue.null := by
  induction jar with
  | nil => rfl
  | cons p ps ih =>
    have h1 := (h p (by simp)).1
    have h2 := (h p (by simp)).2
    have hname : segName (entryStr p) = p.1 := segName_entryStr p h1
    have hval : segValue (entryStr p) = JsValue.str p.2 := segValue_entryStr p h1 h2
    rw [List.map_cons]
    unfold findPair
    by_cases hk : p.1 = k
    · rw [hname, if_pos hk, hval, List.find?_cons_of_pos _ (by simp [hk])]
    · rw [hname, if_neg hk, List.find?_cons_of_neg _ (by simp [hk])]
      exact ih (fun q hq => h q (by simp [hq]))

theorem renderJar_ne_nil (p : List Char × List Char) (ps : Jar) :
    renderJar (p :: ps) ≠ [] := by
  cases ps with
  | nil => simp [renderJar, entryStr]
  | cons q ps' => simp [renderJar, entryStr]

/-- Reading a clean jar back through `get`: association-list lookup. -/
theorem get_renderJar (jar : Jar)
    (h : ∀ q ∈ jar, CleanStr q.1 ∧ CleanStr q.2) (k : List Char) :
    get (renderJar jar) k =
      match jar.find? (fun p => p.1 = k) with
      | some p => JsValue.str p.2
      | none => JsValue.null := by
  cases jar with
  | nil => rfl
  | cons p ps =>
    unfold get
    rw [if_neg (renderJar_ne_nil p ps), splitSemiWs_renderJar _ h (by simp)]
    exact findPair_entries _ h k

/-! Reduction of the host write for the strings `set` and `unset` assign. -/

theorem setCookieString_default (k v : List Char) :
    setCookieString k v JsArg.undef JsArg.undef JsArg.undef JsArg.undef
      JsArg.undef JsArg.undef = (k ++ '=' :: v) ++ ';' :: "path=/;".data := by
  show k ++ "=".data ++ v ++ ";path=".data ++ "/".data ++ ";".data = _
  simp [List.append_assoc]

theorem splitOnChar_setDefault (k v : List Char)
    (hk : CleanStr k) (hv : CleanStr v) :
    splitOnChar ';' (setCookieString k v JsArg.undef JsArg.undef JsArg.undef
      JsArg.undef JsArg.undef JsArg.undef) =
      (k ++ '=' :: v) :: ["path=/".data, []] := by
  rw [setCookieString_default,
    splitOnChar_append_sep ';' (k ++ '=' :: v) _ (entryStr_no_semi (k, v) hk hv)]
  rfl

theorem hostName_setDefault (k v : List Char) (hk : CleanStr k) (hv : CleanStr v) :
    hostName (setCookieString k v JsArg.undef JsArg.undef JsArg.undef JsArg.undef
      JsArg.undef JsArg.undef) = k := by
  unfold hostName
  rw [splitOnChar_setDefault k v hk hv, List.headD_cons,
    splitOnChar_append_sep '=' k v (fun c hc => (hk c hc).2.1)]
  rfl

theorem hostValue_setDefault (k v : List Char) (hk : CleanStr k) (hv : CleanStr v) :
    hostValue (setCookieString k v JsArg.undef JsArg.undef JsArg.undef JsArg.undef
      JsArg.undef JsArg.undef) = v := by
  unfold hostValue
  rw [splitOnChar_setDefault k v hk hv, List.headD_cons,
    splitOnChar_append_sep '=' k v (fun c hc => (hk c hc).2.1),
    splitOnChar_nosep '=' v (fun c hc => (hv c hc).2.1)]
  rfl

/-- The default-option `set` write upserts (key, value) in the jar. -/
theorem hostWrite_setDefault (jar : Jar) (k v : List Char)
    (hk : CleanStr k) (hv : CleanStr v) :
    hostWrite jar (setCookieString k v JsArg.undef JsArg.undef JsArg.undef
      JsArg.undef JsArg.undef JsArg.undef) =
      if (jar.any fun p => p.1 = k) then
        jar.map (fun p => if p.1 = k then (k, v) else p)
      else jar ++ [(k, v)] := by
  unfold hostWrite
  rw [splitOnChar_setDefault k v hk hv, hostName_setDefault k v hk hv,
    hostValue_setDefault k v hk hv]
  simp only [List.drop_succ_cons, List.drop_zero]
  rw [if_neg (by decide)]

theorem unsetString_eq (k : List Char) :
    unsetString k =
      (k ++ ['=']) ++ ';' :: ("expires=".data ++ epochUTC ++ ";path=/".data) := by
  unfold unsetString
  simp [List.append_assoc]

theorem splitOnChar_unsetString (k : List Char) (hk : CleanStr k) :
    splitOnChar ';' (unsetString k) =
      (k ++ ['=']) :: [("expires=".data ++ epochUTC), "path=/".data] := by
  have hns : ∀ c ∈ k ++ ['='], c ≠ ';' := by
    intro c hc
    rcases List.mem_append.1 hc with hc | hc
    · exact (hk c hc).1
    · rcases List.mem_singleton.1 hc with rfl
      decide
  rw [unsetString_eq, splitOnChar_append_sep ';' (k ++ ['=']) _ hns]
  simp only [List.cons.injEq, true_and]
  decide

theorem hostName_unsetString (k : List Char) (hk : CleanStr k) :
    hostName (unsetString k) = k := by
  unfold hostName
  rw [splitOnChar_unsetString k hk, List.headD_cons,
    splitOnChar_append_sep '=' k [] (fun c hc => (hk c hc).2.1)]
  rfl

/-- The `unset` write deletes the key from the jar (epoch expiry). -/
theorem hostWrite_unsetString (jar : Jar) (k : List Char) (hk : CleanStr k) :
    hostWrite jar (unsetString k) = jar.filter (fun p => ¬ (p.1 = k)) := by
  unfold hostWrite
  rw [splitOnChar_unsetString k hk, hostName_unsetString k hk]
  simp only [List.drop_succ_cons, List.drop_zero]
  rw [if_pos (by decide)]

/-! Lookup and well-formedness after upsert, delete. -/

theorem find?_upsert_self (jar : Jar) (k v : List Char) :
    (if (jar.any fun p => p.1 = k) then
        jar.map (fun p => if p.1 = k then (k, v) else p)
      else jar ++ [(k, v)]).find? (fun p => p.1 = k) = some (k, v) := by
  by_cases ha : (jar.any fun p => p.1 = k) = true
  · rw [if_pos ha]
    exact find?_map_replace_self jar k v ha
  · rw [if_neg ha]
    refine find?_append_single_self jar k v ?_
    intro p hp hpk
    exact ha (List.any_eq_true.2 ⟨p, hp, by simp [hpk]⟩)

theorem find?_filter_ne_self (jar : Jar) (k : List Char) :
    (jar.filter (fun p => ¬ (p.1 = k))).find? (fun p => p.1 = k) = none := by
  rw [List.find?_eq_none]
  intro p hp
  have hm := List.mem_filter.1 hp
  have : ¬ (p.1 = k) := of_decide_eq_true hm.2
  simpa using this

theorem WFJar_upsert (jar : Jar) (k v : List Char)
    (hj : WFJar jar) (hk : CleanStr k) (hv : CleanStr v) :
    WFJar (if (jar.any fun p => p.1 = k) then
        jar.map (fun p => if p.1 = k then (k, v) else p)
      else jar ++ [(k, v)]) := by
  by_cases ha : (jar.any fun p => p.1 = k) = true
  · rw [if_pos ha]
    constructor
    · intro p hp
      obtain ⟨q, hq, hqe⟩ := List.mem_map.1 hp
      by_cases h : q.1 = k
      · rw [if_pos h] at hqe
        rw [← hqe]
        exact ⟨hk, hv⟩
      · rw [if_neg h] at hqe
        rw [← hqe]
        exact hj.1 q hq
    · have hfst : (jar.map (fun p => if p.1 = k then (k, v) else p)).map Prod.fst =
          jar.map Prod.fst := by
        rw [List.map_map]
        apply List.map_congr_left
        intro p hp
        by_cases h : p.1 = k
        · simp [h]
        · simp [h]
      rw [hfst]
      exact hj.2
  · rw [if_neg ha]
    have hnotin : ∀ p ∈ jar, ¬ (p.1 = k) := by
      intro p hp hpk
      exact ha (List.any_eq_true.2 ⟨p, hp, by simp [hpk]⟩)
    constructor
    · intro p hp
      rcases List.mem_append.1 hp with hp | hp
      · exact hj.1 p hp
      · rcases List.mem_singleton.1 hp with rfl
        exact ⟨hk, hv⟩
    · rw [List.map_append]
      refine List.Nodup.append hj.2 (List.nodup_singleton k) ?_
      intro x hx hx2
      rcases List.mem_singleton.1 hx2 with rfl
      obtain ⟨p, hp, hpe⟩ := List.mem_map.1 hx
      exact hnotin p hp hpe

theorem WFJar_filter (jar : Jar) (hj : WFJar jar) (pred : List Char × List Char → Bool) :
    WFJar (jar.filter pred) := by
  constructor
  · intro p hp
    exact hj.1 p (List.mem_filter.1 hp).1
  · exact List.Nodup.sublist ((jar.filter_sublist).map Prod.fst) hj.2

/-! `getAll` over a clean jar, and the effect of `clear`. -/

theorem objSet_fresh (acc : JsObject) (n : List Char) (v : JsValue)
    (hfresh : ∀ r ∈ acc, r.1 ≠ n) :
    objSet acc n v = acc ++ [(n, v)] := by
  unfold objSet
  rw [if_neg ?hna]
  case hna =>
    intro ha
    obtain ⟨r, hr, hrn⟩ := List.any_eq_true.1 ha
    exact hfresh r hr (of_decide_eq_true hrn)

theorem foldl_objSet_entries (jar : Jar) (acc : JsObject)
    (hclean : ∀ q ∈ jar, CleanStr q.1 ∧ CleanStr q.2)
    (hnodup : (jar.map Prod.fst).Nodup)
    (hfresh : ∀ q ∈ jar, ∀ r ∈ acc, r.1 ≠ q.1) :
    (jar.map entryStr).foldl
        (fun result seg => objSet result (segName seg) (segValue seg)) acc =
      acc ++ jar.map (fun p => (p.1, JsValue.str p.2)) := by
  induction jar generalizing acc with
  | nil => simp
  | cons p ps ih =>
    have hnd := hnodup
    rw [List.map_cons, List.nodup_cons] at hnd
    rw [List.map_cons, List.foldl_cons,
      segName_entryStr p (hclean p (by simp)).1,
      segValue_entryStr p (hclean p (by simp)).1 (hclean p (by simp)).2,
      objSet_fresh acc p.1 (JsValue.str p.2) (fun r hr => hfresh p (by simp) r hr)]
    rw [ih _ (fun q hq => hclean q (by simp [hq])) hnd.2 ?hfr]
    · simp
    case hfr =>
      intro q hq r hr
      rcases List.mem_append.1 hr with hr | hr
      · exact hfresh q (by simp [hq]) r hr
      · rcases List.mem_singleton.1 hr with rfl
        intro heq
        refine hnd.1 ?_
        rw [show p.1 = q.1 from heq]
        exact List.mem_map_of_mem Prod.fst hq

/-- Reading a clean jar via `getAll`: every entry as a string value, in jar
order. -/
theorem getAll_renderJar (jar : Jar) (hj : WFJar jar) :
    getAll (renderJar jar) = jar.map (fun p => (p.1, JsValue.str p.2)) := by
  cases jar with
  | nil => rfl
  | cons p ps =>
    unfold getAll
    rw [if_neg (renderJar_ne_nil p ps), splitSemiWs_renderJar _ hj.1 (by simp),
      foldl_objSet_entries (p :: ps) [] hj.1 hj.2
        (fun q hq r hr => absurd hr (List.not_mem_nil r))]
    simp

theorem foldl_unset_clears (pairs : JsObject) (jar : Jar)
    (hj : WFJar jar)
    (hclean : ∀ q ∈ pairs, CleanStr q.1)
    (hcover : ∀ p ∈ jar, p.1 ∈ pairs.map Prod.fst) :
    pairs.foldl (fun j q => (unset j q.1).2) jar = [] := by
  induction pairs generalizing jar with
  | nil =>
    cases jar with
    | nil => rfl
    | cons p ps => exact absurd (hcover p (by simp)) (by simp)
  | cons q qs ih =>
    rw [List.foldl_cons]
    have hu : (unset jar q.1).2 = jar.filter (fun p => ¬ (p.1 = q.1)) :=
      hostWrite_unsetString jar q.1 (hclean q (by simp))
    rw [hu]
    refine ih (jar.filter _) (WFJar_filter jar hj _)
      (fun r hr => hclean r (by simp [hr])) ?_
    intro p hp
    have hm := List.mem_filter.1 hp
    have hne : ¬ (p.1 = q.1) := of_decide_eq_true hm.2
    have h1 := hcover p hm.1
    rw [List.map_cons, List.mem_cons] at h1
    rcases h1 with h1 | h1
    · exact absurd h1 hne
    · exact h1

theorem truthy_str_nil : (JsArg.str []).truthy = false := rfl

theorem toStr_str (l : List Char) : (JsArg.str l).toStr = l := rfl

/-- Round trip of a single default-option `set`, together with preservation
of jar well-formedness (shared by several claims below). -/
theorem set_default_roundtrip (jar : Jar) (k v : List Char)
    (hj : WFJar jar) (hk : CleanStr k) (hv : CleanStr v) :
    get (renderJar (set jar k v JsArg.undef JsArg.undef JsArg.undef JsArg.undef
        JsArg.undef JsArg.undef).2) k = JsValue.str v ∧
    WFJar (set jar k v JsArg.undef JsArg.undef JsArg.undef JsArg.undef
        JsArg.undef JsArg.undef).2 := by
  have h2 : (set jar k v JsArg.undef JsArg.undef JsArg.undef JsArg.undef
      JsArg.undef JsArg.undef).2 =
      if (jar.any fun p => p.1 = k) then
        jar.map (fun p => if p.1 = k then (k, v) else p)
      else jar ++ [(k, v)] := hostWrite_setDefault jar k v hk hv
  constructor
  · rw [h2, get_renderJar _ (WFJar_upsert jar k v hj hk hv).1 k,
      find?_upsert_self jar k v]
  · rw [h2]
    exact WFJar_upsert jar k v hj hk hv

/-! The claims. -/

/-- C1: for every well-formed ambient jar and every key and value free of
';', '=', and whitespace, `set(k, v)` with default options followed by
`get(k)` on the resulting ambient cookie string yields `v`. -/
theorem C1_set_get_roundtrip (jar : Jar) (k v : List Char)
    (hj : WFJar jar) (hk : CleanStr k) (hv : CleanStr v) :
    get (renderJar (set jar k v JsArg.undef JsArg.undef JsArg.undef JsArg.undef
      JsArg.undef JsArg.undef).2) k = JsValue.str v :=
  (set_default_roundtrip jar k v hj hk hv).1

/-- Witness for C1: a concrete jar, key, and value satisfying the
hypotheses, with the round trip observed. -/
theorem C1_set_get_roundtrip_witness :
    WFJar [("x".data, "9".data)] ∧ CleanStr "a".data ∧ CleanStr "1".data ∧
    get (renderJar (set [("x".data, "9".data)] "a".data "1".data JsArg.undef
      JsArg.undef JsArg.undef JsArg.undef JsArg.undef JsArg.undef).2) "a".data =
      JsValue.str "1".data :=
  ⟨by decide, by decide, by decide,
    C1_set_get_roundtrip [("x".data, "9".data)] "a".data "1".data
      (by decide) (by decide) (by decide)⟩

/-- C2 counterexample: on the ambient string "a=b=c" the code returns "b"
(the text between the first and second '='), not the entire remainder "b=c"
that the claim describes; the claim's own description `specGet` disagrees
with the code's `get` at this input. -/
theorem C2_counterexample :
    get "a=b=c".data "a".data = JsValue.str "b".data ∧
    specGet "a=b=c".data "a".data = JsValue.str "b=c".data ∧
    get "a=b=c".data "a".data ≠ specGet "a=b=c".data "a".data := by
  decide

/-- C2 (amended): `get` splits the ambient string on ';' with optional
surrounding whitespace and returns, for the first segment whose name (text
before the first '=') equals the key, the text strictly BETWEEN the first
and second '=' of that segment — not the entire remainder. -/
theorem C2_get_matches_amended_description (cookie key : List Char) :
    get cookie key = amendedGet cookie key := by
  unfold get amendedGet
  by_cases h : cookie = []
  · rw [if_pos h, if_pos h]
  · rw [if_neg h, if_neg h]
    exact findPair_eq_amended _ key

/-- C3 counterexample: the read operations are total, but a segment with no
'=' is NOT skipped by `getAll`: on ambient "foo" it contributes the entry
("foo", undefined), so the returned mapping is not empty. -/
theorem C3_counterexample :
    getAll "foo".data = [("foo".data, JsValue.undef)] ∧
    getAll "foo".data ≠ [] ∧
    get "foo".data "foo".data = JsValue.undef := by
  decide

/-- C3 (amended): the read operations are total functions (they can never
raise), and a malformed segment (one containing no '=') can never produce a
string result: whenever `get` or a `getAll` lookup yields a string, it came
from a segment that contains '='. A segment without '=' still contributes an
entry to `getAll`'s object, but with the undefined value. -/
theorem C3_malformed_segments_never_yield_strings (cookie key s : List Char) :
    (get cookie key = JsValue.str s →
      ∃ seg ∈ splitSemiWs cookie, '=' ∈ seg ∧ segName seg = key ∧
        segValue seg = JsValue.str s) ∧
    (objGet (getAll cookie) key = JsValue.str s →
      ∃ seg ∈ splitSemiWs cookie, '=' ∈ seg ∧ segName seg = key ∧
        segValue seg = JsValue.str s) := by
  constructor
  · intro h
    unfold get at h
    by_cases hc : cookie = []
    · rw [if_pos hc] at h
      exact absurd h (by simp)
    · rw [if_neg hc] at h
      obtain ⟨seg, hs, h1, h2⟩ := findPair_str_source _ _ _ h
      exact ⟨seg, hs, segValue_str_mem seg s h2, h1, h2⟩
  · intro h
    unfold getAll at h
    by_cases hc : cookie = []
    · rw [if_pos hc] at h
      exact absurd h (by simp [objGet])
    · rw [if_neg hc, objGet_foldl_segs _ [] key] at h
      cases hl : ((splitSemiWs cookie).filter (fun seg => segName seg = key)).getLast? with
      | none =>
        rw [hl] at h
        exact absurd h (by simp [objGet])
      | some seg =>
        rw [hl] at h
        have h' : segValue seg = JsValue.str s := h
        have hin := List.mem_filter.1 (List.mem_of_getLast?_eq_some hl)
        exact ⟨seg, hin.1, segValue_str_mem seg s h',
          of_decide_eq_true hin.2, h'⟩

/-- Witness for C3: a string result of `get` and of a `getAll` lookup traced
back to its '='-bearing segment. -/
theorem C3_witness :
    get "a=1".data "a".data = JsValue.str "1".data ∧
    (∃ seg ∈ splitSemiWs "a=1".data, '=' ∈ seg ∧ segName seg = "a".data ∧
      segValue seg = JsValue.str "1".data) ∧
    (∃ seg ∈ splitSemiWs "b=2".data, '=' ∈ seg ∧ segName seg = "b".data ∧
      segValue seg = JsValue.str "2".data) :=
  ⟨by decide,
    (C3_malformed_segments_never_yield_strings "a=1".data "a".data "1".data).1
      (by decide),
    (C3_malformed_segments_never_yield_strings "b=2".data "b".data "2".data).2
      (by decide)⟩

/-- C4: when the same name occurs in two or more segments of the ambient
string, `getAll` maps it to the value of the LAST matching segment. -/
theorem C4_getAll_last_occurrence_wins (cookie key seg : List Char)
    (hc : cookie ≠ [])
    (hmulti : 2 ≤ ((splitSemiWs cookie).filter (fun s => segName s = key)).length)
    (hlast : ((splitSemiWs cookie).filter (fun s => segName s = key)).getLast? =
      some seg) :
    objGet (getAll cookie) key = segValue seg := by
  unfold getAll
  rw [if_neg hc, objGet_foldl_segs _ [] key, hlast]

/-- Witness for C4: on "a=1;a=2" the name a occurs twice and the lookup
returns the value of the last occurrence. -/
theorem C4_getAll_last_occurrence_wins_witness :
    "a=1;a=2".data ≠ ([] : List Char) ∧
    2 ≤ ((splitSemiWs "a=1;a=2".data).filter
      (fun s => segName s = "a".data)).length ∧
    ((splitSemiWs "a=1;a=2".data).filter
      (fun s => segName s = "a".data)).getLast? = some "a=2".data ∧
    objGet (getAll "a=1;a=2".data) "a".data = segValue "a=2".data ∧
    segValue "a=2".data = JsValue.str "2".data :=
  ⟨by decide, by decide, by decide,
    C4_getAll_last_occurrence_wins "a=1;a=2".data "a".data "a=2".data
      (by decide) (by decide) (by decide), by decide⟩

/-- C5: a second default-option `set` of the same key returns the previous
value (read via `get` before the mutation), a subsequent `get` yields the
new value, and `set` returns null when no cookie with the key existed. -/
theorem C5_set_overwrites (jar : Jar) (k v1 v2 : List Char)
    (hj : WFJar jar) (hk : CleanStr k) (hv1 : CleanStr v1) (hv2 : CleanStr v2) :
    (set (set jar k v1 JsArg.undef JsArg.undef JsArg.undef JsArg.undef JsArg.undef
        JsArg.undef).2 k v2 JsArg.undef JsArg.undef JsArg.undef JsArg.undef
        JsArg.undef JsArg.undef).1 = JsValue.str v1 ∧
    get (renderJar (set (set jar k v1 JsArg.undef JsArg.undef JsArg.undef
        JsArg.undef JsArg.undef JsArg.undef).2 k v2 JsArg.undef JsArg.undef
        JsArg.undef JsArg.undef JsArg.undef JsArg.undef).2) k = JsValue.str v2 ∧
    (get (renderJar jar) k = JsValue.null →
      (set jar k v1 JsArg.undef JsArg.undef JsArg.undef JsArg.undef JsArg.undef
        JsArg.undef).1 = JsValue.null) := by
  obtain ⟨hr1, hw1⟩ := set_default_roundtrip jar k v1 hj hk hv1
  obtain ⟨hr2, hw2⟩ := set_default_roundtrip _ k v2 hw1 hk hv2
  exact ⟨hr1, hr2, fun h => h⟩

/-- Witness for C5: overwrite observed on a concrete jar. -/
theorem C5_set_overwrites_witness :
    WFJar ([] : Jar) ∧
    (set (set [] "a".data "1".data JsArg.undef JsArg.undef JsArg.undef JsArg.undef
        JsArg.undef JsArg.undef).2 "a".data "2".data JsArg.undef JsArg.undef
        JsArg.undef JsArg.undef JsArg.undef JsArg.undef).1 = JsValue.str "1".data ∧
    get (renderJar (set (set [] "a".data "1".data JsArg.undef JsArg.undef
        JsArg.undef JsArg.undef JsArg.undef JsArg.undef).2 "a".data "2".data
        JsArg.undef JsArg.undef JsArg.undef JsArg.undef JsArg.undef
        JsArg.undef).2) "a".data = JsValue.str "2".data := by
  obtain ⟨h1, h2, h3⟩ := C5_set_overwrites [] "a".data "1".data "2".data
    (by decide) (by decide) (by decide) (by decide)
  exact ⟨by decide, h1, h2⟩

/-- C6: `unset(k)` after `set(k, v)` returns `v` (read via `get` before the
write), writes the expired-cookie string `k=;expires=<epoch>;path=/`, and a
subsequent `get(k)` yields null. -/
theorem C6_unset_after_set (jar : Jar) (k v : List Char)
    (hj : WFJar jar) (hk : CleanStr k) (hv : CleanStr v) :
    (unset (set jar k v JsArg.undef JsArg.undef JsArg.undef JsArg.undef
        JsArg.undef JsArg.undef).2 k).1 = JsValue.str v ∧
    unsetString k = k ++ "=;expires=Thu, 01 Jan 1970 00:00:00 GMT;path=/".data ∧
    get (renderJar (unset (set jar k v JsArg.undef JsArg.undef JsArg.undef
        JsArg.undef JsArg.undef JsArg.undef).2 k).2) k = JsValue.null := by
  obtain ⟨hr1, hw1⟩ := set_default_roundtrip jar k v hj hk hv
  refine ⟨hr1, ?_, ?_⟩
  · unfold unsetString epochUTC
    simp only [List.append_assoc, List.append_right_inj]
    decide
  · have hu : (unset (set jar k v JsArg.undef JsArg.undef JsArg.undef JsArg.undef
        JsArg.undef JsArg.undef).2 k).2 =
        (set jar k v JsArg.undef JsArg.undef JsArg.undef JsArg.undef JsArg.undef
          JsArg.undef).2.filter (fun p => ¬ (p.1 = k)) :=
      hostWrite_unsetString _ k hk
    rw [hu, get_renderJar _ (WFJar_filter _ hw1 _).1 k, find?_filter_ne_self _ k]

/-- Witness for C6 on a concrete jar, key, and value. -/
theorem C6_unset_after_set_witness :
    WFJar ([] : Jar) ∧
    (unset (set [] "a".data "1".data JsArg.undef JsArg.undef JsArg.undef JsArg.undef
        JsArg.undef JsArg.undef).2 "a".data).1 = JsValue.str "1".data ∧
    get (renderJar (unset (set [] "a".data "1".data JsArg.undef JsArg.undef
        JsArg.undef JsArg.undef JsArg.undef JsArg.undef).2 "a".data).2) "a".data =
      JsValue.null := by
  obtain ⟨h1, h2, h3⟩ := C6_unset_after_set [] "a".data "1".data
    (by decide) (by decide) (by decide)
  exact ⟨by decide, h1, h3⟩

/-- C7: the attribute string `set` assigns has the mandatory
`key=value;path=<path>;` prefix followed by the optional attributes in
exactly the order expires, max-age, domain, secure, samesite, each present
only when its option is truthy; in particular the `setAsArray` scenario with
`{key:"x", value:"5", secure:true}` writes exactly "x=5;path=/;secure;" and
upserts ("x", "5"). -/
theorem C7_setCookieString_format (k v : List Char) (p e m d s ss : JsArg) :
    setCookieString k v p e m d s ss =
      k ++ "=".data ++ v ++ ";path=".data ++
        (if p.truthy then p.toStr else "/".data) ++ ";".data ++
      (if e.truthy then "expires=".data ++ e.toStr ++ ";".data else []) ++
      (if m.truthy then "max-age=".data ++ m.toStr ++ ";".data else []) ++
      (if d.truthy then "domain=".data ++ d.toStr ++ ";".data else []) ++
      (if s.truthy then "secure;".data else []) ++
      (if ss.truthy then "samesite;".data else []) ∧
    setCookieString "x".data "5".data JsArg.undef JsArg.undef JsArg.undef
      JsArg.undef (JsArg.bool true) JsArg.undef = "x=5;path=/;secure;".data ∧
    setAsArray [] [⟨"x".data, "5".data, JsArg.undef, JsArg.undef, JsArg.undef,
      JsArg.undef, JsArg.bool true, JsArg.undef⟩] = [("x".data, "5".data)] := by
  refine ⟨?_, by decide, by decide⟩
  unfold setCookieString
  cases hp : p.truthy <;> cases he : e.truthy <;> cases hm : m.truthy <;>
    cases hd : d.truthy <;> cases hs : s.truthy <;> cases hss : ss.truthy <;>
    simp [hp, he, hm, hd, hs, hss, truthy_str_nil, toStr_str, List.append_assoc]

/-- C8: `clear` folds `unset` over one `getAll` snapshot, and on a
well-formed jar this leaves the ambient store empty, so a subsequent
`getAll` yields the empty mapping. -/
theorem C8_clear_unsets_snapshot (jar : Jar) (hj : WFJar jar) :
    clear jar = (getAll (renderJar jar)).foldl (fun j p => (unset j p.1).2) jar ∧
    getAll (renderJar (clear jar)) = [] := by
  constructor
  · rfl
  · have hc : clear jar = [] := by
      unfold clear
      rw [getAll_renderJar jar hj]
      refine foldl_unset_clears _ jar hj ?_ ?_
      · intro q hq
        obtain ⟨p, hp, hpe⟩ := List.mem_map.1 hq
        rw [← hpe]
        exact (hj.1 p hp).1
      · intro p hp
        rw [List.map_map]
        exact List.mem_map_of_mem _ hp
    rw [hc]
    rfl

/-- Witness for C8: the scenario of setting a map of two entries with default
options and clearing. -/
theorem C8_clear_unsets_snapshot_witness :
    WFJar (setAsMap [] [("a".data, "1".data), ("b".data, "2".data)]) ∧
    getAll (renderJar (clear (setAsMap []
      [("a".data, "1".data), ("b".data, "2".data)]))) = [] :=
  ⟨by decide,
    (C8_clear_unsets_snapshot _ (by decide)).2⟩

/-- C9: on the ambient string "a=1; b=2;c=3" (whitespace around one
delimiter), `getAll` yields exactly the three pairs, `get("b")` yields "2",
and `get("z")` is absent. -/
theorem C9_scenario :
    getAll "a=1; b=2;c=3".data =
      [("a".data, JsValue.str "1".data), ("b".data, JsValue.str "2".data),
        ("c".data, JsValue.str "3".data)] ∧
    get "a=1; b=2;c=3".data "b".data = JsValue.str "2".data ∧
    get "a=1; b=2;c=3".data "z".data = JsValue.null := by
  decide

/-- C10: `set` coerces falsy option arguments to their defaults before
building the attribute string: an explicitly passed empty-string path
behaves exactly like an absent path (yielding path=/), and a falsy expires,
maxAge, or domain (empty string, 0, null, ...) leaves the attribute string
exactly as if the option had not been passed. -/
theorem C10_falsy_options_default (k v : List Char) (p e m d s ss : JsArg) :
    setCookieString k v (JsArg.str []) e m d s ss =
      setCookieString k v JsArg.undef e m d s ss ∧
    setCookieString k v (JsArg.str []) JsArg.undef JsArg.undef JsArg.undef
      JsArg.undef JsArg.undef = (k ++ '=' :: v) ++ ';' :: "path=/;".data ∧
    (e.truthy = false →
      setCookieString k v p e m d s ss = setCookieString k v p JsArg.undef m d s ss) ∧
    (m.truthy = false →
      setCookieString k v p e m d s ss = setCookieString k v p e JsArg.undef d s ss) ∧
    (d.truthy = false →
      setCookieString k v p e m d s ss = setCookieString k v p e m JsArg.undef s ss) := by
  refine ⟨rfl, setCookieString_default k v, fun h => ?_, fun h => ?_, fun h => ?_⟩ <;>
    · unfold setCookieString
      rw [h]
      rfl

/-- Witness for C10: falsy option values 0, "", and null behave as absent. -/
theorem C10_falsy_options_default_witness :
    (JsArg.num 0).truthy = false ∧ (JsArg.str []).truthy = false ∧
    JsArg.null.truthy = false ∧
    setCookieString "k".data "v".data (JsArg.str "/x".data) (JsArg.num 0)
        (JsArg.str []) JsArg.null (JsArg.bool false) (JsArg.bool false) =
      setCookieString "k".data "v".data (JsArg.str "/x".data) JsArg.undef
        (JsArg.str []) JsArg.null (JsArg.bool false) (JsArg.bool false) :=
  ⟨by decide, by decide, by decide,
    (C10_falsy_options_default "k".data "v".data (JsArg.str "/x".data) (JsArg.num 0)
      (JsArg.str []) JsArg.null (JsArg.bool false) (JsArg.bool false)).2.2.1
      (by decide)⟩

end JsCookie
